import Mathlib

/-!
Verification of the statistical post-processing utilities in `pymc/utilities.py`.

The module is embedded shallowly:

* a 1-D numpy array of samples is a `List ℚ` (sample values are exact rationals);
* an n-D array is a shape `List ℕ` together with a valuation `List ℕ → ℚ`
  on index tuples (only in-bounds tuples are ever read);
* Python exceptions surface as `Option` results (`none` = the call raised);
* numpy primitives used by the source (`np.sort`, `np.argmin`, `np.resize`,
  `np.mean`, `np.std`, slicing with Python semantics) are embedded by small
  definitions named after them.

`np.std` involves a square root, so the batch standard-error calculator takes
values in `ℝ`; everything structural stays computable over `ℚ` and `ℕ`.
-/

namespace PyMCUtil

/-- `np.sort`: returns a new array with the same elements in ascending order. -/
def np_sort (l : List ℚ) : List ℚ := List.insertionSort (· ≤ ·) l

/-- `ndarray.copy()`: allocates a fresh array with equal contents; as a value
it is the identity. -/
def np_copy (l : List ℚ) : List ℚ := l

/-- Minimum value of a list (`0` on the empty list, on which it is never used). -/
def listMin : List ℚ → ℚ
  | [] => 0
  | h :: t => t.foldl min h

/-- `np.argmin`: index of the first occurrence of the minimum value. -/
def np_argmin (l : List ℚ) : ℕ := l.findIdx (fun v => decide (v = listMin l))

/-- Start offset of a Python slice `x[i:]` (equally, end offset of `x[:i]`) on an
array of length `n`: a negative index counts from the end, clamped at 0; `drop`
and `take` clamp large offsets on their own. -/
def pyStart (n : ℕ) (i : ℤ) : ℕ := if i < 0 then ((n : ℤ) + i).toNat else i.toNat

/-- Python slice `x[i:]`. -/
def pySliceFrom (x : List ℚ) (i : ℤ) : List ℚ := x.drop (pyStart x.length i)

/-- Python slice `x[:i]`. -/
def pySliceTo (x : List ℚ) (i : ℤ) : List ℚ := x.take (pyStart x.length i)

/-- Python indexing `x[i]`: a negative index counts from the end.  In every use
below the index is in range, so the default value is never returned. -/
def pyGetD (x : List ℚ) (i : ℤ) : ℚ :=
  if i < 0 then x.getD ((x.length : ℤ) + i).toNat 0 else x.getD i.toNat 0

/-- `calc_min_interval(x, alpha)` from `pymc/utilities.py`: assumes `x` sorted,
computes `interval_idx_inc = int(np.floor(cred_mass*n))`,
`n_intervals = n - interval_idx_inc`, the elementwise difference
`x[interval_idx_inc:] - x[:n_intervals]`, raises (`none`) when that array is
empty, and otherwise returns `(x[min_idx], x[min_idx+interval_idx_inc])` with
`min_idx = np.argmin(interval_width)`. -/
def calc_min_interval (x : List ℚ) (alpha : ℚ) : Option (ℚ × ℚ) :=
  let n := x.length
  let cred_mass : ℚ := 1 - alpha
  let interval_idx_inc : ℤ := ⌊cred_mass * (n : ℚ)⌋
  let n_intervals : ℤ := (n : ℤ) - interval_idx_inc
  let interval_width :=
    List.zipWith (· - ·) (pySliceFrom x interval_idx_inc) (pySliceTo x n_intervals)
  if interval_width.length = 0 then none
  else
    let min_idx := np_argmin interval_width
    some (pyGetD x (min_idx : ℤ), pyGetD x ((min_idx : ℤ) + interval_idx_inc))

/-- The `interval_idx_inc` quantity of `calc_min_interval`, as a natural number
(it agrees with the source's integer whenever `0 < alpha < 1`). -/
def intervalIdxInc (x : List ℚ) (alpha : ℚ) : ℕ :=
  (⌊(1 - alpha) * (x.length : ℚ)⌋).toNat

/-- Width of candidate window `i` for separation `k`: `x[i+k] - x[i]`. -/
def winWidth (x : List ℚ) (k i : ℕ) : ℚ := x.getD (i + k) 0 - x.getD i 0

/-! ### Helper lemmas about `listMin` and `np_argmin` -/

theorem foldl_min_le_init (t : List ℚ) : ∀ a : ℚ, t.foldl min a ≤ a := by
  induction t with
  | nil => intro a; simp
  | cons h t ih =>
    intro a
    calc (h :: t).foldl min a = t.foldl min (min a h) := by simp [List.foldl_cons]
    _ ≤ min a h := ih (min a h)
    _ ≤ a := min_le_left _ _

theorem foldl_min_le_mem (t : List ℚ) :
    ∀ a b : ℚ, b ∈ t → t.foldl min a ≤ b := by
  induction t with
  | nil => intro a b hb; simp at hb
  | cons h t ih =>
    intro a b hb
    rcases List.mem_cons.mp hb with rfl | hb
    · calc (b :: t).foldl min a = t.foldl min (min a b) := by simp [List.foldl_cons]
      _ ≤ min a b := foldl_min_le_init t (min a b)
      _ ≤ b := min_le_right _ _
    · simpa [List.foldl_cons] using ih (min a h) b hb

theorem foldl_min_mem_or (t : List ℚ) :
    ∀ a : ℚ, t.foldl min a = a ∨ t.foldl min a ∈ t := by
  induction t with
  | nil => intro a; left; rfl
  | cons h t ih =>
    intro a
    rcases ih (min a h) with heq | hmem
    · simp only [List.foldl_cons]
      rcases le_total a h with hle | hle
      · left; rw [heq, min_eq_left hle]
      · right; rw [heq, min_eq_right hle]; exact List.mem_cons_self _ _
    · right
      simp only [List.foldl_cons]
      exact List.mem_cons_of_mem _ hmem

theorem listMin_le (l : List ℚ) : ∀ a ∈ l, listMin l ≤ a := by
  cases l with
  | nil => intro a ha; simp at ha
  | cons h t =>
    intro a ha
    rcases List.mem_cons.mp ha with rfl | ha
    · exact foldl_min_le_init t a
    · exact foldl_min_le_mem t h a ha

theorem listMin_mem (l : List ℚ) (h : l ≠ []) : listMin l ∈ l := by
  cases l with
  | nil => exact absurd rfl h
  | cons a t =>
    rcases foldl_min_mem_or t a with heq | hmem
    · rw [listMin, heq]; exact List.mem_cons_self _ _
    · rw [listMin]; exact List.mem_cons_of_mem _ hmem

theorem np_argmin_lt_length (l : List ℚ) (h : l ≠ []) : np_argmin l < l.length :=
  List.findIdx_lt_length_of_exists ⟨listMin l, listMin_mem l h, by simp⟩

theorem getElem_np_argmin (l : List ℚ) (h : np_argmin l < l.length) :
    l[np_argmin l] = listMin l := by
  have hfi := @List.findIdx_getElem _ (fun v => decide (v = listMin l)) l h
  simpa using hfi

theorem np_argmin_first (l : List ℚ) (j : ℕ) (hj : j < np_argmin l)
    (hjl : j < l.length) : l[j] ≠ listMin l := by
  have hne := @List.not_of_lt_findIdx _ (fun v => decide (v = listMin l)) l j hj
  simpa using hne

/-! ### The core description of a successful `calc_min_interval` run -/

theorem cmi_core (x : List ℚ) (alpha : ℚ) (h0 : 0 < alpha) (h1 : alpha < 1)
    (hx : x ≠ []) :
    ∃ m : ℕ, m + intervalIdxInc x alpha < x.length ∧
      calc_min_interval x alpha =
        some (x.getD m 0, x.getD (m + intervalIdxInc x alpha) 0) ∧
      (∀ j, j + intervalIdxInc x alpha < x.length →
        winWidth x (intervalIdxInc x alpha) m ≤ winWidth x (intervalIdxInc x alpha) j) ∧
      (∀ j, j < m → winWidth x (intervalIdxInc x alpha) m < winWidth x (intervalIdxInc x alpha) j) := by
  set n := x.length with hnlen
  have hn : 0 < n := List.length_pos.mpr hx
  set cred : ℚ := 1 - alpha with hcred
  have hcred0 : 0 < cred := by rw [hcred]; linarith
  have hcred1 : cred < 1 := by rw [hcred]; linarith
  set incZ : ℤ := ⌊cred * (n : ℚ)⌋ with hincZ
  have hinc0 : 0 ≤ incZ := Int.floor_nonneg.mpr (by positivity)
  have hincn : incZ < (n : ℤ) := by
    rw [hincZ]
    apply Int.floor_lt.mpr
    push_cast
    have : (0 : ℚ) < (n : ℚ) := by exact_mod_cast hn
    nlinarith
  set k : ℕ := intervalIdxInc x alpha with hk
  have hkZ : (k : ℤ) = incZ := by
    rw [hk, intervalIdxInc, ← hnlen, ← hcred, ← hincZ]
    exact Int.toNat_of_nonneg hinc0
  have hkn : k < n := by
    have := hincn; rw [← hkZ] at this; exact_mod_cast this
  -- the two slices
  have hslice1 : pySliceFrom x incZ = x.drop k := by
    rw [pySliceFrom, pyStart, if_neg (not_lt.mpr hinc0), ← hkZ]
    simp
  have hslice2 : pySliceTo x ((n : ℤ) - incZ) = x.take (n - k) := by
    rw [pySliceTo, pyStart, ← hkZ, ← hnlen]
    rw [if_neg (by omega)]
    congr 1
    omega
  -- the width array, rewritten as an explicit table of window widths
  have hweq : List.zipWith (fun a b => a - b) (x.drop k) (x.take (n - k)) =
      (List.range (n - k)).map (fun j => winWidth x k j) := by
    apply List.ext_getElem
    · simp only [List.length_zipWith, List.length_drop, List.length_take,
        List.length_map, List.length_range, ← hnlen]
      omega
    · intro j h1 h2
      have hjnk : j < n - k := by
        simpa using h2
      simp only [List.getElem_zipWith, List.getElem_drop, List.getElem_take,
        List.getElem_map, List.getElem_range, winWidth]
      rw [List.getD_eq_getElem x 0 (by omega : j + k < x.length),
          List.getD_eq_getElem x 0 (by omega : j < x.length)]
      congr 2
      omega
  set W := (List.range (n - k)).map (fun j => winWidth x k j) with hW
  have hWlen : W.length = n - k := by
    rw [hW]; simp
  have hWget : ∀ (j : ℕ) (hj : j < W.length), W[j] = winWidth x k j := by
    intro j hj
    have hj' : j < n - k := by omega
    simp only [hW, List.getElem_map, List.getElem_range]
  -- evaluate the source function
  have hcalc : calc_min_interval x alpha =
      some (pyGetD x ((np_argmin W : ℕ) : ℤ), pyGetD x (((np_argmin W : ℕ) : ℤ) + incZ)) := by
    rw [calc_min_interval]
    simp only [← hnlen, ← hcred, ← hincZ, hslice1, hslice2, hweq, ← hW]
    rw [if_neg (by omega : ¬ (W.length = 0))]
  set m := np_argmin W with hm
  have hWne : W ≠ [] := List.ne_nil_of_length_pos (by omega)
  have hmlt : m < W.length := np_argmin_lt_length W hWne
  have hmin : W[m] = listMin W := getElem_np_argmin W hmlt
  refine ⟨m, ?_, ?_, ?_, ?_⟩
  · omega
  · rw [hcalc]
    have hg1 : pyGetD x ((m : ℕ) : ℤ) = x.getD m 0 := by
      rw [pyGetD, if_neg (by omega : ¬ (((m : ℕ) : ℤ) < 0))]
      norm_num
    have hg2 : pyGetD x (((m : ℕ) : ℤ) + incZ) = x.getD (m + k) 0 := by
      rw [pyGetD, if_neg (by omega : ¬ (((m : ℕ) : ℤ) + incZ < 0)), ← hkZ]
      congr 1
    rw [hg1, hg2]
  · intro j hj
    have hjW : j < W.length := by omega
    have h1 : winWidth x k m = listMin W := by
      rw [← hWget m hmlt, hmin]
    have h2 : listMin W ≤ W[j] := listMin_le W _ (List.getElem_mem hjW)
    rw [h1, ← hWget j hjW]
    exact h2
  · intro j hj
    have hjW : j < W.length := by omega
    have h1 : winWidth x k m = listMin W := by
      rw [← hWget m hmlt, hmin]
    have h2 : listMin W ≤ W[j] := listMin_le W _ (List.getElem_mem hjW)
    have h3 : W[j] ≠ listMin W := np_argmin_first W j hj hjW
    rw [h1, ← hWget j hjW]
    exact lt_of_le_of_ne h2 (fun hEq => h3 hEq.symm)

/-- **C1.** For every 1-D array `x` sorted ascending and `alpha ∈ (0,1)` with
`n_intervals > 0`, `calc_min_interval(x, alpha)` returns the pair
`(x[min_idx], x[min_idx + interval_idx_inc])` where
`interval_idx_inc = ⌊(1-alpha)*n⌋` and `min_idx` is the smallest index in
`[0, n - interval_idx_inc)` minimising the window width
`x[i+interval_idx_inc] - x[i]`, ties broken by the first occurrence. -/
theorem calc_min_interval_c1 (x : List ℚ) (alpha : ℚ)
    (hsorted : List.Sorted (· ≤ ·) x) (h0 : 0 < alpha) (h1 : alpha < 1)
    (hni : 0 < (x.length : ℤ) - ⌊(1 - alpha) * (x.length : ℚ)⌋) :
    ∃ m : ℕ, m + intervalIdxInc x alpha < x.length ∧
      calc_min_interval x alpha =
        some (x.getD m 0, x.getD (m + intervalIdxInc x alpha) 0) ∧
      (∀ j, j + intervalIdxInc x alpha < x.length →
        winWidth x (intervalIdxInc x alpha) m ≤ winWidth x (intervalIdxInc x alpha) j) ∧
      (∀ j, j < m → winWidth x (intervalIdxInc x alpha) m < winWidth x (intervalIdxInc x alpha) j) := by
  have hx : x ≠ [] := by
    intro h
    subst h
    simp at hni
  exact cmi_core x alpha h0 h1 hx

/-- Witness for C1 at `x = [1,2,4,8]`, `alpha = 1/2`. -/
theorem calc_min_interval_c1_witness :
    List.Sorted (· ≤ ·) [(1:ℚ), 2, 4, 8] ∧ (0:ℚ) < 1/2 ∧ (1/2 : ℚ) < 1 ∧
    0 < (([(1:ℚ), 2, 4, 8].length : ℤ) - ⌊(1 - 1/2) * ([(1:ℚ), 2, 4, 8].length : ℚ)⌋) ∧
    (∃ m : ℕ, m + intervalIdxInc [(1:ℚ), 2, 4, 8] (1/2) < [(1:ℚ), 2, 4, 8].length ∧
      calc_min_interval [(1:ℚ), 2, 4, 8] (1/2) =
        some ([(1:ℚ), 2, 4, 8].getD m 0,
              [(1:ℚ), 2, 4, 8].getD (m + intervalIdxInc [(1:ℚ), 2, 4, 8] (1/2)) 0) ∧
      (∀ j, j + intervalIdxInc [(1:ℚ), 2, 4, 8] (1/2) < [(1:ℚ), 2, 4, 8].length →
        winWidth [(1:ℚ), 2, 4, 8] (intervalIdxInc [(1:ℚ), 2, 4, 8] (1/2)) m ≤
          winWidth [(1:ℚ), 2, 4, 8] (intervalIdxInc [(1:ℚ), 2, 4, 8] (1/2)) j) ∧
      (∀ j, j < m →
        winWidth [(1:ℚ), 2, 4, 8] (intervalIdxInc [(1:ℚ), 2, 4, 8] (1/2)) m <
          winWidth [(1:ℚ), 2, 4, 8] (intervalIdxInc [(1:ℚ), 2, 4, 8] (1/2)) j)) := by
  have hsorted : List.Sorted (· ≤ ·) [(1:ℚ), 2, 4, 8] := by
    norm_num [List.sorted_cons]
  have h0 : (0:ℚ) < 1/2 := by norm_num
  have h1 : (1/2 : ℚ) < 1 := by norm_num
  have hni : 0 < (([(1:ℚ), 2, 4, 8].length : ℤ) - ⌊(1 - 1/2) * ([(1:ℚ), 2, 4, 8].length : ℚ)⌋) := by
    norm_num
  exact ⟨hsorted, h0, h1, hni, calc_min_interval_c1 _ _ hsorted h0 h1 hni⟩

/-- **C10.** With exact arithmetic and `alpha ∈ (0,1)`, the
`'Too few elements'` branch of `calc_min_interval` fires exactly on the empty
array: the call raises (`none`) iff `x = []`. -/
theorem calc_min_interval_c10 (x : List ℚ) (alpha : ℚ)
    (h0 : 0 < alpha) (h1 : alpha < 1) :
    calc_min_interval x alpha = none ↔ x = [] := by
  constructor
  · intro hnone
    by_contra hx
    obtain ⟨m, _, heq, _, _⟩ := cmi_core x alpha h0 h1 hx
    rw [heq] at hnone
    exact Option.noConfusion hnone
  · intro h
    subst h
    simp [calc_min_interval, pySliceFrom, pySliceTo]

/-- Witness for C10 at `x = [1,2]`, `alpha = 1/2`. -/
theorem calc_min_interval_c10_witness :
    (0:ℚ) < 1/2 ∧ (1/2 : ℚ) < 1 ∧
    (calc_min_interval [(1:ℚ), 2] (1/2) = none ↔ [(1:ℚ), 2] = []) :=
  ⟨by norm_num, by norm_num,
    calc_min_interval_c10 [(1:ℚ), 2] (1/2) (by norm_num) (by norm_num)⟩

/-- **C6 counterexample.** On the sorted array `[1,1,1]` with `alpha = 1/2`,
`calc_min_interval` succeeds with bounds `(1,1)`, `interval_idx_inc + 1 = 2`,
but all `3` samples lie in the closed interval `[1,1]` — the claimed equality
of the two counts is false. -/
theorem calc_min_interval_c6_counterexample :
    List.Sorted (· ≤ ·) [(1:ℚ), 1, 1] ∧
    calc_min_interval [(1:ℚ), 1, 1] (1/2) = some (1, 1) ∧
    intervalIdxInc [(1:ℚ), 1, 1] (1/2) + 1 = 2 ∧
    [(1:ℚ), 1, 1].countP (fun v => decide ((1:ℚ) ≤ v ∧ v ≤ 1)) = 3 ∧ (3 : ℕ) ≠ 2 := by
  refine ⟨?_, ?_, ?_, ?_, by norm_num⟩
  · norm_num [List.sorted_cons]
  · norm_num [calc_min_interval, pySliceFrom, pySliceTo, pyStart, pyGetD,
      np_argmin, listMin]
    simp [min_def, List.findIdx_cons]
    all_goals try norm_num
    all_goals rfl
  · norm_num [intervalIdxInc]
  · norm_num [List.countP_cons]

/-- **C6 (amended).** For sorted `x` and `alpha ∈ (0,1)`, whenever
`calc_min_interval` succeeds with `(lo, hi)`, both bounds are elements of `x`,
`lo ≤ hi`, and **at least** `interval_idx_inc + 1` samples of `x` lie in the
closed interval `[lo, hi]` (with repeated sample values the count can exceed
`interval_idx_inc + 1`, so the spec's stated equality is weakened to `≥`). -/
theorem calc_min_interval_c6 (x : List ℚ) (alpha : ℚ) (lo hi : ℚ)
    (hsorted : List.Sorted (· ≤ ·) x) (h0 : 0 < alpha) (h1 : alpha < 1)
    (hsucc : calc_min_interval x alpha = some (lo, hi)) :
    lo ∈ x ∧ hi ∈ x ∧ lo ≤ hi ∧
      intervalIdxInc x alpha + 1 ≤ x.countP (fun v => decide (lo ≤ v ∧ v ≤ hi)) := by
  have hx : x ≠ [] := by
    intro h
    subst h
    rw [(calc_min_interval_c10 [] alpha h0 h1).mpr rfl] at hsucc
    exact Option.noConfusion hsucc
  obtain ⟨m, hmk, heq, _, _⟩ := cmi_core x alpha h0 h1 hx
  set k := intervalIdxInc x alpha with hk
  rw [heq] at hsucc
  have hlo : lo = x.getD m 0 := by
    injection hsucc with h
    exact (congrArg Prod.fst h).symm
  have hhi : hi = x.getD (m + k) 0 := by
    injection hsucc with h
    exact (congrArg Prod.snd h).symm
  have hmlt : m < x.length := by omega
  have hmklt : m + k < x.length := hmk
  have hgetlo : lo = x[m] := by rw [hlo, List.getD_eq_getElem x 0 hmlt]
  have hgethi : hi = x[m + k] := by rw [hhi, List.getD_eq_getElem x 0 hmklt]
  have hmono : ∀ (a b : ℕ) (ha : a < x.length) (hb : b < x.length), a ≤ b → x[a] ≤ x[b] := by
    intro a b ha hb hab
    have hab' : (⟨a, ha⟩ : Fin x.length) ≤ ⟨b, hb⟩ := hab
    exact hsorted.rel_get_of_le hab'
  refine ⟨?_, ?_, ?_, ?_⟩
  · rw [hgetlo]; exact List.getElem_mem hmlt
  · rw [hgethi]; exact List.getElem_mem hmklt
  · rw [hgetlo, hgethi]
    exact hmono m (m + k) hmlt hmklt (by omega)
  · -- the window x[m..m+k] is a sublist of x whose k+1 elements all lie in [lo,hi]
    have hSsub : ((x.drop m).take (k + 1)).Sublist x :=
      (List.take_sublist _ _).trans (List.drop_sublist _ _)
    have hSlen : ((x.drop m).take (k + 1)).length = k + 1 := by
      simp only [List.length_take, List.length_drop]
      omega
    have hSmem : ∀ a ∈ (x.drop m).take (k + 1), lo ≤ a ∧ a ≤ hi := by
      intro a ha
      obtain ⟨j, hj, hja⟩ := List.mem_iff_getElem.mp ha
      rw [hSlen] at hj
      simp only [List.getElem_take, List.getElem_drop] at hja
      constructor
      · rw [hgetlo, ← hja]
        exact hmono m (m + j) hmlt (by omega) (by omega)
      · rw [hgethi, ← hja]
        exact hmono (m + j) (m + k) (by omega) hmklt (by omega)
    have hcount : ((x.drop m).take (k + 1)).countP (fun v => decide (lo ≤ v ∧ v ≤ hi)) =
        ((x.drop m).take (k + 1)).length := by
      apply List.countP_eq_length.mpr
      intro a ha
      simpa using hSmem a ha
    calc k + 1 = ((x.drop m).take (k + 1)).countP (fun v => decide (lo ≤ v ∧ v ≤ hi)) := by
          rw [hcount, hSlen]
    _ ≤ x.countP (fun v => decide (lo ≤ v ∧ v ≤ hi)) := hSsub.countP_le _

/-- Witness for C6 (amended) at `x = [1,2,4]`, `alpha = 1/2`. -/
theorem calc_min_interval_c6_witness :
    List.Sorted (· ≤ ·) [(1:ℚ), 2, 4] ∧ (0:ℚ) < 1/2 ∧ (1/2 : ℚ) < 1 ∧
    calc_min_interval [(1:ℚ), 2, 4] (1/2) = some (1, 2) ∧
    ((1:ℚ) ∈ [(1:ℚ), 2, 4] ∧ (2:ℚ) ∈ [(1:ℚ), 2, 4] ∧ (1:ℚ) ≤ 2 ∧
      intervalIdxInc [(1:ℚ), 2, 4] (1/2) + 1 ≤
        [(1:ℚ), 2, 4].countP (fun v => decide ((1:ℚ) ≤ v ∧ v ≤ 2))) := by
  have hsorted : List.Sorted (· ≤ ·) [(1:ℚ), 2, 4] := by
    norm_num [List.sorted_cons]
  have h0 : (0:ℚ) < 1/2 := by norm_num
  have h1 : (1/2 : ℚ) < 1 := by norm_num
  have hsucc : calc_min_interval [(1:ℚ), 2, 4] (1/2) = some (1, 2) := by
    norm_num [calc_min_interval, pySliceFrom, pySliceTo, pyStart, pyGetD,
      np_argmin, listMin]
    simp [min_def, List.findIdx_cons]
    all_goals try norm_num
    all_goals rfl
  exact ⟨hsorted, h0, h1, hsucc,
    calc_min_interval_c6 [(1:ℚ), 2, 4] (1/2) 1 2 hsorted h0 h1 hsucc⟩

/-! ### `make_indices` -/

/-- Result of `make_indices`: for a single dimension the source returns the
plain `range(d)` of integers, otherwise a list of index tuples. -/
inductive IndicesResult where
  | intRange : ℕ → IndicesResult
  | tuples : List (List ℕ) → IndicesResult
  deriving DecidableEq

/-- The while-loop of `make_indices`: starting from `indices = [[]]` it walks
`level` from `len(dimensions)` down to `1`, replacing `indices` by all lists
`[j] + i` with `j in range(dimensions[level-1])` and `i in indices`.  Walking
the axes from the last outward is exactly a right fold over the dimension
list, written here as structural recursion. -/
def miLoop : List ℕ → List (List ℕ)
  | [] => [[]]
  | d :: ds => (List.range d).flatMap (fun j => (miLoop ds).map (fun i => j :: i))

/-- `make_indices(dimensions)` from `pymc/utilities.py`. -/
def make_indices (dims : List ℕ) : IndicesResult :=
  if dims.length = 1 then .intRange dims.headI else .tuples (miLoop dims)

theorem miLoop_mem (dims : List ℕ) (t : List ℕ) :
    t ∈ miLoop dims ↔ List.Forall₂ (· < ·) t dims := by
  induction dims generalizing t with
  | nil =>
    simp only [miLoop, List.mem_singleton]
    constructor
    · rintro rfl; exact List.Forall₂.nil
    · intro h; cases h; rfl
  | cons d ds ih =>
    simp only [miLoop, List.mem_flatMap, List.mem_map, List.mem_range]
    constructor
    · rintro ⟨j, hj, i, hi, rfl⟩
      exact List.Forall₂.cons hj ((ih i).mp hi)
    · intro h
      cases h with
      | cons hrel hrest =>
        exact ⟨_, hrel, _, (ih _).mpr hrest, rfl⟩

theorem miLoop_nodup (dims : List ℕ) : (miLoop dims).Nodup := by
  induction dims with
  | nil => simp [miLoop]
  | cons d ds ih =>
    rw [miLoop]
    apply List.nodup_flatMap.mpr
    constructor
    · intro j _
      exact ih.map (fun a b hab => by injection hab)
    · have hpr : (List.range d).Pairwise (· < ·) := List.pairwise_lt_range d
      apply hpr.imp
      intro a b hab
      intro t ht1 ht2
      obtain ⟨i1, _, hi1⟩ := List.mem_map.mp ht1
      obtain ⟨i2, _, hi2⟩ := List.mem_map.mp ht2
      rw [← hi1] at hi2
      injection hi2 with hhead _
      omega

/-- **C7.** For dimension tuples of positive integers with `k ≥ 2` axes,
`make_indices` returns a materialised list containing every coordinate tuple
of the Cartesian product `{0..d1-1} × ... × {0..dk-1}` exactly once (no
duplicates, membership iff coordinatewise bounded); for `k = 1` it returns
the plain sequence `range(d1)`, not wrapped in 1-tuples. -/
theorem make_indices_c7 (dims : List ℕ) (hpos : ∀ d ∈ dims, 0 < d)
    (hk : 2 ≤ dims.length) :
    (∃ l, make_indices dims = .tuples l ∧ l.Nodup ∧
      ∀ t, t ∈ l ↔ List.Forall₂ (· < ·) t dims) ∧
    (∀ d : ℕ, make_indices [d] = .intRange d) := by
  constructor
  · refine ⟨miLoop dims, ?_, miLoop_nodup dims, fun t => miLoop_mem dims t⟩
    rw [make_indices, if_neg (by omega)]
  · intro d
    rw [make_indices]
    simp

/-- Witness for C7 at `dims = (2,3)`; the product list indeed has the 6
distinct tuples promised by the spec. -/
theorem make_indices_c7_witness :
    (∀ d ∈ [2, 3], 0 < d) ∧ 2 ≤ [2, 3].length ∧
    ((∃ l, make_indices [2, 3] = .tuples l ∧ l.Nodup ∧
        ∀ t, t ∈ l ↔ List.Forall₂ (· < ·) t [2, 3]) ∧
      (∀ d : ℕ, make_indices [d] = .intRange d)) ∧
    miLoop [2, 3] = [[0, 0], [0, 1], [0, 2], [1, 0], [1, 1], [1, 2]] := by
  have hpos : ∀ d ∈ [2, 3], 0 < d := by decide
  have hk : 2 ≤ [2, 3].length := by decide
  exact ⟨hpos, hk, make_indices_c7 [2, 3] hpos hk, by decide⟩

/-! ### `calc_quantiles` -/

/-- Python `int(q)`: truncation toward zero. -/
def pyInt (q : ℚ) : ℤ := if 0 ≤ q then ⌊q⌋ else ⌈q⌉

/-- `calc_quantiles(x, qlist)` from `pymc/utilities.py`, univariate case:
sorts a copy of `x` and builds `dict(zip(qlist, [sx[int(len(sx)*q/100.0)] for
q in qlist]))` as an association list.  If any computed index is outside
Python's valid range the comprehension raises `IndexError`, which the source
catches, printing `'Too few elements for quantile calculation'` and
implicitly returning `None` — modelled as `none`. -/
def calc_quantiles (x : List ℚ) (qlist : List ℚ) : Option (List (ℚ × ℚ)) :=
  let sx := np_sort (np_copy x)
  let idx : ℚ → ℤ := fun q => pyInt ((sx.length : ℚ) * q / 100)
  if qlist.all (fun q => decide (-(sx.length : ℤ) ≤ idx q ∧ idx q < (sx.length : ℤ)))
  then some (qlist.map (fun q => (q, pyGetD sx (idx q))))
  else none

/-- **C3.** `calc_quantiles([10,20,30,40,50], qlist=(50,))` returns `{50: 30}`
(index `int(5*50/100.0) = 2`), but on an out-of-bounds index — e.g.
`x = [10,20]`, `q = 100`, index `2` — the source prints a message and returns
`None` (`none` here) instead of raising a catchable `InsufficientDataError`
as the spec demands. -/
theorem calc_quantiles_c3 :
    calc_quantiles [10, 20, 30, 40, 50] [50] = some [(50, 30)] ∧
    calc_quantiles [10, 20] [100] = none := by
  constructor
  · norm_num [calc_quantiles, np_sort, np_copy, pyInt, pyGetD,
      List.insertionSort, List.orderedInsert]
    all_goals try norm_num
    all_goals rfl
  · norm_num [calc_quantiles, np_sort, np_copy, pyInt, pyGetD,
      List.insertionSort, List.orderedInsert]

/-- **C8.** The source performs no parameter validation: with `alpha = 2`
(outside `(0,1)`) `calc_min_interval` silently returns the degenerate
interval `(1, 1)` on `[1,2,3]` instead of raising `InvalidParameterError`,
and with the quantile `150` (outside `[0,100]`) `calc_quantiles` lands in the
print-and-return-`None` path rather than raising `InvalidParameterError`. -/
theorem no_invalid_parameter_error_c8 :
    calc_min_interval [1, 2, 3] 2 = some (1, 1) ∧
    calc_quantiles [1, 2, 3] [150] = none := by
  constructor
  · norm_num [calc_min_interval, pySliceFrom, pySliceTo, pyStart, pyGetD,
      np_argmin, listMin]
    simp [min_def, List.findIdx_cons]
    all_goals try norm_num
    all_goals rfl
  · norm_num [calc_quantiles, np_sort, np_copy, pyInt, pyGetD,
      List.insertionSort, List.orderedInsert]

/-! ### `batchsd` -/

/-- `np.mean` of a 1-D array (`0/0 = 0` on the empty array). -/
def npmean (l : List ℚ) : ℚ := l.sum / l.length

/-- Population variance (the square of `np.std`, whose default is `ddof=0`). -/
def npvar (l : List ℚ) : ℚ := ((l.map (fun v => (v - npmean l) ^ 2)).sum) / l.length

/-- `np.std` of a 1-D array. -/
noncomputable def npstd (l : List ℚ) : ℝ := Real.sqrt (npvar l)

/-- `np.resize(a, (r, c))`: fills the new row-major shape by cycling through
the data of `a` (and zero-fills from an empty source).  It never raises for
nonnegative shapes, so the source's `except ValueError` fallback (trimming
`len(trace) % batches` trailing samples) is dead code and is not modelled:
the truncation it was meant to produce already happens here whenever
`r*c ≤ len(a)`. -/
def np_resize2 (a : List ℚ) (r c : ℕ) : List (List ℚ) :=
  (List.range r).map (fun i => (List.range c).map (fun j => a.getD ((i * c + j) % a.length) 0))

/-- `batchsd(trace, batches)` from `pymc/utilities.py`, univariate case
(`len(np.shape(trace)) == 1`).  `len(trace)/batches` is Python-2 integer
floor division. -/
noncomputable def batchsd (trace : List ℚ) (batches : ℕ) : ℝ :=
  if batches = 1 then npstd trace / Real.sqrt ((trace.length : ℝ))
  else
    let batched_traces := np_resize2 trace batches (trace.length / batches)
    let means := batched_traces.map npmean
    npstd means / Real.sqrt ((batches : ℝ))

theorem np_resize2_eq_groups (a : List ℚ) (r c : ℕ) (hrc : r * c ≤ a.length) :
    np_resize2 a r c = (List.range r).map (fun i => (a.drop (i * c)).take c) := by
  apply List.ext_getElem
  · simp [np_resize2]
  · intro i h1 h2
    have hir : i < r := by
      simpa [np_resize2] using h1
    have hic : (i + 1) * c ≤ r * c := Nat.mul_le_mul_right c (by omega)
    have hic' : i * c + c ≤ a.length := by
      rw [Nat.add_mul, one_mul] at hic
      omega
    simp only [np_resize2, List.getElem_map, List.getElem_range]
    apply List.ext_getElem
    · simp only [List.length_map, List.length_range, List.length_take, List.length_drop]
      omega
    · intro j hj1 hj2
      have hjc : j < c := by
        simpa using hj1
      have hij : i * c + j < a.length := by omega
      simp only [List.getElem_map, List.getElem_range, List.getElem_take, List.getElem_drop]
      rw [Nat.mod_eq_of_lt (by omega), List.getD_eq_getElem a 0 hij]

/-- **C4.** On a rank-1 trace, `batchsd(trace, 1)` is
`std(trace)/sqrt(len(trace))`, and for `batches > 1` the trace is split into
`batches` contiguous groups of size `len(trace)/batches` (floor), discarding
the `len(trace) mod batches` trailing samples, and the result is the standard
deviation of the group means divided by `sqrt(batches)`. -/
theorem batchsd_c4 (trace : List ℚ) (b : ℕ) (hb : 1 < b) :
    batchsd trace 1 = npstd trace / Real.sqrt ((trace.length : ℝ)) ∧
    batchsd trace b =
      npstd (((List.range b).map
          (fun i => (trace.drop (i * (trace.length / b))).take (trace.length / b))).map npmean) /
        Real.sqrt ((b : ℝ)) := by
  constructor
  · rw [batchsd, if_pos rfl]
  · rw [batchsd, if_neg (by omega)]
    have hrc : b * (trace.length / b) ≤ trace.length := by
      have := Nat.div_mul_le_self trace.length b
      rw [Nat.mul_comm]
      omega
    rw [np_resize2_eq_groups trace b (trace.length / b) hrc]

/-- Witness for C4 on the spec's example `[1,2,3,4,5,6]`, `batches = 3`:
the groups are `[[1,2],[3,4],[5,6]]` and the result is
`std(means)/sqrt(3)`. -/
theorem batchsd_c4_witness :
    (1 : ℕ) < 3 ∧
    (batchsd [(1:ℚ), 2, 3, 4, 5, 6] 1 =
      npstd [(1:ℚ), 2, 3, 4, 5, 6] / Real.sqrt (([(1:ℚ), 2, 3, 4, 5, 6].length : ℝ)) ∧
     batchsd [(1:ℚ), 2, 3, 4, 5, 6] 3 =
      npstd (((List.range 3).map
          (fun i => ([(1:ℚ), 2, 3, 4, 5, 6].drop (i * ([(1:ℚ), 2, 3, 4, 5, 6].length / 3))).take
            ([(1:ℚ), 2, 3, 4, 5, 6].length / 3))).map npmean) /
        Real.sqrt (((3:ℕ) : ℝ))) ∧
    ((List.range 3).map
        (fun i => ([(1:ℚ), 2, 3, 4, 5, 6].drop (i * ([(1:ℚ), 2, 3, 4, 5, 6].length / 3))).take
          ([(1:ℚ), 2, 3, 4, 5, 6].length / 3))).map npmean =
      [npmean [1, 2], npmean [3, 4], npmean [5, 6]] := by
    refine ⟨by norm_num, batchsd_c4 [(1:ℚ), 2, 3, 4, 5, 6] 3 (by norm_num), ?_⟩
    simp [List.range_succ]

/-! ### `batchsd` on multivariate traces -/

/-- Row-major (C-order, numpy default) linear position of multi-index `J` in
shape `ds`. -/
def flattenIdx : List ℕ → List ℕ → ℕ
  | d :: ds, j :: J => j * ds.prod + flattenIdx ds J
  | _, _ => 0

/-- Multi-index of the row-major linear position `p` in shape `ds`. -/
def unflattenIdx : List ℕ → ℕ → List ℕ
  | [], _ => []
  | _ :: ds, p => (p / ds.prod) :: unflattenIdx ds (p % ds.prod)

theorem flattenIdx_lt (ds J : List ℕ) (h : List.Forall₂ (· < ·) J ds) :
    flattenIdx ds J < ds.prod := by
  induction h with
  | nil => simp [flattenIdx]
  | @cons a b l1 l2 hab hrest ih =>
    simp only [flattenIdx, List.prod_cons]
    have hp : 0 < l2.prod := by omega
    calc a * l2.prod + flattenIdx l2 l1 < a * l2.prod + l2.prod := by omega
    _ = (a + 1) * l2.prod := by ring
    _ ≤ b * l2.prod := Nat.mul_le_mul_right _ (by omega)

theorem unflattenIdx_flattenIdx (ds J : List ℕ) (h : List.Forall₂ (· < ·) J ds) :
    unflattenIdx ds (flattenIdx ds J) = J := by
  induction h with
  | nil => rfl
  | @cons a b l1 l2 hab hrest ih =>
    have hp : flattenIdx l2 l1 < l2.prod := flattenIdx_lt _ _ hrest
    have hpp : 0 < l2.prod := by omega
    simp only [flattenIdx, unflattenIdx]
    congr 1
    · rw [Nat.mul_comm a, Nat.mul_add_div hpp, Nat.div_eq_of_lt hp, Nat.add_zero]
    · rw [Nat.mul_comm a, Nat.mul_add_mod, Nat.mod_eq_of_lt hp]
      exact ih

/-- `batchsd(trace, batches)` from `pymc/utilities.py` for a trace of rank
`≥ 2`, represented as a shape `s = d0 :: ds` together with a valuation on
index tuples.  The source builds `ttrace = np.transpose([t.ravel() for t in
trace])`: raveling each axis-0 slice is C-order flattening, so the row of
`ttrace` at linear position `p` is the length-`d0` sample vector
`[trace[i][unflatten(p)] for i in range(d0)]`.  Each row `t` of `ttrace` is
1-D, so the recursive `batchsd(t, batches)` call hits the univariate case,
and `np.reshape(results, dims[1:])` lays the `prod(ds)` scalars back out over
the trailing axes.  Returned as the pair (output shape, valuation). -/
noncomputable def batchsd_nd (s : List ℕ) (x : List ℕ → ℚ) (batches : ℕ) :
    List ℕ × (List ℕ → ℝ) :=
  let d0 := s.headI
  let ds := s.tail
  let M := ds.prod
  let ttrace : ℕ → List ℚ := fun p => (List.range d0).map (fun i => x (i :: unflattenIdx ds p))
  let results : List ℝ := (List.range M).map (fun p => batchsd (ttrace p) batches)
  (ds, fun J => results.getD (flattenIdx ds J) 0)

/-- **C5 counterexample.** On the rank-2 trace `[[1,2,3],[4,5,6]]` of shape
`(2,3)` the claim predicts an output shaped like the leading axes, `(2,)`;
the code returns an array shaped like the trailing axes, `(3,)` — `batchsd`
treats the FIRST axis of a multivariate trace as the sample axis. -/
theorem batchsd_c5_counterexample :
    (batchsd_nd [2, 3] (fun J => (3 * J.headI + J.tail.headI + 1 : ℚ)) 1).1 = [3] ∧
    [3] ≠ [2] := ⟨rfl, by decide⟩

/-- **C5 (amended).** For a trace of rank ≥ 2 and shape `(n, d1, ..., dk)` —
the sample axis being the first axis, not the last — `batchsd` returns an
array shaped like the trailing axes `(d1, ..., dk)` whose entry at every
in-bounds index `J` is the scalar univariate batch standard error of the 1-D
trace `[trace[i][J] for i in range(n)]`. -/
theorem batchsd_c5 (n : ℕ) (ds : List ℕ) (x : List ℕ → ℚ) (b : ℕ)
    (J : List ℕ) (hJ : List.Forall₂ (· < ·) J ds) :
    (batchsd_nd (n :: ds) x b).1 = ds ∧
    (batchsd_nd (n :: ds) x b).2 J =
      batchsd ((List.range n).map (fun i => x (i :: J))) b := by
  constructor
  · rfl
  · have hflt : flattenIdx ds J < ds.prod := flattenIdx_lt ds J hJ
    show ((List.range ds.prod).map
        (fun p => batchsd ((List.range n).map (fun i => x (i :: unflattenIdx ds p))) b)).getD
        (flattenIdx ds J) 0 = _
    rw [List.getD_eq_getElem _ _ (by simpa using hflt)]
    simp only [List.getElem_map, List.getElem_range]
    rw [unflattenIdx_flattenIdx ds J hJ]

/-- Witness for C5 (amended) on the shape-(2,3) trace `[[1,2,3],[4,5,6]]`
with the default `batches = 5`, at trailing index `J = [2]`. -/
theorem batchsd_c5_witness :
    List.Forall₂ (· < ·) [2] [3] ∧
    ((batchsd_nd [2, 3] (fun J => (3 * J.headI + J.tail.headI + 1 : ℚ)) 5).1 = [3] ∧
     (batchsd_nd [2, 3] (fun J => (3 * J.headI + J.tail.headI + 1 : ℚ)) 5).2 [2] =
       batchsd ((List.range 2).map
         (fun i => (fun J => (3 * J.headI + J.tail.headI + 1 : ℚ)) (i :: [2]))) 5) := by
  have hJ : List.Forall₂ (· < ·) [2] [3] :=
    List.Forall₂.cons (by norm_num) List.Forall₂.nil
  exact ⟨hJ, batchsd_c5 2 [3] (fun J => (3 * J.headI + J.tail.headI + 1 : ℚ)) 5 [2] hJ⟩

/-! ### `hpd` -/

/-- `hpd(x, alpha)` from `pymc/utilities.py`, univariate case (`x.ndim == 1`):
copy, sort, delegate to `calc_min_interval`; `np.array` on the resulting pair
is the identity here. -/
def hpd1 (x : List ℚ) (alpha : ℚ) : Option (ℚ × ℚ) :=
  calc_min_interval (np_sort (np_copy x)) alpha

/-- `np.transpose(x, range(x.ndim)[1:]+[0])`: moves axis 0 to the last
position; as a valuation on index tuples it reads the original array with the
last coordinate moved to the front. -/
def transposeFirstToLast (x : List ℕ → ℚ) : List ℕ → ℚ :=
  fun idx => x (idx.getLastD 0 :: idx.dropLast)

theorem transposeFirstToLast_concat (x : List ℕ → ℚ) (index : List ℕ) (j : ℕ) :
    transposeFirstToLast x (index ++ [j]) = x (j :: index) := by
  rw [transposeFirstToLast]
  simp

/-- The iteration list of the `hpd` loop, `make_indices(dims[:-1])`: a plain
integer `j` produced by the rank-1 special case fails the `tuple(index)`
conversion (caught and passed) and then indexes `intervals` exactly like the
1-tuple `(j,)`. -/
def hpdIndexList (lead : List ℕ) : List (List ℕ) :=
  match make_indices lead with
  | .intRange d => (List.range d).map (fun j => [j])
  | .tuples l => l

theorem hpdIndexList_mem (lead : List ℕ) (t : List ℕ) :
    t ∈ hpdIndexList lead ↔ List.Forall₂ (· < ·) t lead := by
  match lead with
  | [] =>
    have h : hpdIndexList [] = miLoop [] := by
      rw [hpdIndexList, make_indices]
      norm_num
    rw [h]
    exact miLoop_mem [] t
  | [d] =>
    have h : hpdIndexList [d] = (List.range d).map (fun j => [j]) := by
      rw [hpdIndexList, make_indices]
      norm_num
    rw [h]
    simp only [List.mem_map, List.mem_range]
    constructor
    · rintro ⟨j, hj, rfl⟩
      exact List.Forall₂.cons hj List.Forall₂.nil
    · intro h
      cases h with
      | cons hab hrest =>
        cases hrest
        exact ⟨_, hab, rfl⟩
  | a :: b :: rest =>
    have h : hpdIndexList (a :: b :: rest) = miLoop (a :: b :: rest) := by
      rw [hpdIndexList, make_indices]
      norm_num
    rw [h]
    exact miLoop_mem _ t

/-- Assignment `intervals[index] = pair` on a valuation of index tuples. -/
def setPt (f : List ℕ → ℚ × ℚ) (i : List ℕ) (v : ℚ × ℚ) : List ℕ → ℚ × ℚ :=
  fun j => if j = i then v else f j

/-- One iteration of the `hpd` loop: compute the cell's interval and store it;
an exception (`none` of `g i`) aborts the whole call. -/
def hpdStep (g : List ℕ → Option (ℚ × ℚ)) (acc : Option (List ℕ → ℚ × ℚ))
    (i : List ℕ) : Option (List ℕ → ℚ × ℚ) :=
  acc.bind (fun f => (g i).map (fun v => setPt f i v))

/-- `hpd(x, alpha)` from `pymc/utilities.py` for `x.ndim > 1`, represented as
a shape `s` plus a valuation on index tuples.  The source copies `x` (a value
identity here), moves axis 0 last (`tx`, with `dims = s[1:] + (s[0],)`),
allocates `intervals = np.resize(0.0, dims[:-1]+(2,))` — the all-zero initial
valuation — and for every `index` in `make_indices(dims[:-1])` sorts the 1-D
slice `tx[index]` and stores the `calc_min_interval` pair at `index`.  The
final `np.array(intervals)` is again the identity. -/
def hpd_nd (s : List ℕ) (x : List ℕ → ℚ) (alpha : ℚ) :
    Option (List ℕ → ℚ × ℚ) :=
  let tx := transposeFirstToLast x
  let dims := s.tail ++ [s.headI]
  let lead := dims.dropLast
  let cell : List ℕ → Option (ℚ × ℚ) := fun index =>
    calc_min_interval
      (np_sort ((List.range (dims.getLastD 0)).map (fun j => tx (index ++ [j])))) alpha
  (hpdIndexList lead).foldl (hpdStep cell) (some (fun _ => (0, 0)))

/-! ### Behaviour of the `hpd` loop fold -/

theorem hpdFold_none (g : List ℕ → Option (ℚ × ℚ)) :
    ∀ l : List (List ℕ), l.foldl (hpdStep g) none = none := by
  intro l
  induction l with
  | nil => rfl
  | cons i t ih =>
    rw [List.foldl_cons]
    simpa [hpdStep] using ih

theorem hpdFold_some (g : List ℕ → Option (ℚ × ℚ)) :
    ∀ l : List (List ℕ), (∀ i ∈ l, ∃ v, g i = some v) →
      ∀ f : List ℕ → ℚ × ℚ, ∃ f', l.foldl (hpdStep g) (some f) = some f' := by
  intro l
  induction l with
  | nil => exact fun _ f => ⟨f, rfl⟩
  | cons i t ih =>
    intro hall f
    obtain ⟨v, hv⟩ := hall i (List.mem_cons_self i t)
    have hstep : (i :: t).foldl (hpdStep g) (some f) =
        t.foldl (hpdStep g) (some (setPt f i v)) := by
      rw [List.foldl_cons]
      simp [hpdStep, hv]
    rw [hstep]
    exact ih (fun j hj => hall j (List.mem_cons_of_mem _ hj)) _

theorem hpdFold_frozen (g : List ℕ → Option (ℚ × ℚ)) :
    ∀ (l : List (List ℕ)) (idx : List ℕ), idx ∉ l →
      ∀ f f' : List ℕ → ℚ × ℚ, l.foldl (hpdStep g) (some f) = some f' →
        f' idx = f idx := by
  intro l
  induction l with
  | nil =>
    intro idx _ f f' h
    injection h with h
    rw [← h]
  | cons i t ih =>
    intro idx hidx f f' h
    rw [List.foldl_cons] at h
    cases hgi : g i with
    | none =>
      rw [show hpdStep g (some f) i = none by simp [hpdStep, hgi]] at h
      rw [hpdFold_none g t] at h
      exact Option.noConfusion h
    | some v =>
      rw [show hpdStep g (some f) i = some (setPt f i v) by simp [hpdStep, hgi]] at h
      have hidx' : idx ∉ t := fun hmem => hidx (List.mem_cons_of_mem _ hmem)
      have hne : idx ≠ i := fun heq => hidx (heq ▸ List.mem_cons_self i t)
      rw [ih idx hidx' _ _ h, setPt, if_neg hne]

theorem hpdFold_value (g : List ℕ → Option (ℚ × ℚ)) :
    ∀ (l : List (List ℕ)) (idx : List ℕ), idx ∈ l →
      (∀ i ∈ l, ∃ v, g i = some v) →
      ∀ f f' : List ℕ → ℚ × ℚ, l.foldl (hpdStep g) (some f) = some f' →
        g idx = some (f' idx) := by
  intro l
  induction l with
  | nil =>
    intro idx h
    simp at h
  | cons i t ih =>
    intro idx hmem hall f f' h
    obtain ⟨v, hv⟩ := hall i (List.mem_cons_self i t)
    rw [List.foldl_cons,
      show hpdStep g (some f) i = some (setPt f i v) by simp [hpdStep, hv]] at h
    by_cases hidx : idx ∈ t
    · exact ih idx hidx (fun j hj => hall j (List.mem_cons_of_mem _ hj)) _ _ h
    · have hii : idx = i := by
        rcases List.mem_cons.mp hmem with h' | h'
        · exact h'
        · exact absurd h' hidx
      subst hii
      rw [hpdFold_frozen g t idx hidx _ _ h, setPt, if_pos rfl, hv]

/-- Every cell of the loop succeeds when its sample column is nonempty and
`alpha ∈ (0,1)`. -/
theorem cmi_isSome (y : List ℚ) (alpha : ℚ) (h0 : 0 < alpha) (h1 : alpha < 1)
    (hy : y ≠ []) : ∃ v, calc_min_interval y alpha = some v := by
  obtain ⟨m, _, heq, _, _⟩ := cmi_core y alpha h0 h1 hy
  exact ⟨_, heq⟩

/-- Normal form of `hpd_nd` on a shape `n :: ds`. -/
theorem hpd_nd_shape_cons (n : ℕ) (ds : List ℕ) (x : List ℕ → ℚ) (alpha : ℚ) :
    hpd_nd (n :: ds) x alpha =
      (hpdIndexList ds).foldl
        (hpdStep (fun index =>
          calc_min_interval (np_sort ((List.range n).map (fun j => x (j :: index)))) alpha))
        (some (fun _ => (0, 0))) := by
  rw [hpd_nd]
  simp only [List.tail_cons, List.headI, List.dropLast_concat, List.getLastD_concat,
    transposeFirstToLast_concat]

/-- **C2 counterexample.** For the shape-(2,3) array `[[1,2,3],[4,5,6]]` and
`alpha = 1/2`, the claim predicts the pair at leading index `(0,)` to be the
rank-1 result on the trailing slice `x[0,:] = [1,2,3]`, i.e. `(1,2)`; the code
instead stores the rank-1 result of the axis-0 slice `x[:,0] = [1,4]`, namely
`(1,4)` — for a multivariate input, `hpd` treats the FIRST axis as the sample
axis. -/
theorem hpd_c2_counterexample :
    (hpd_nd [2, 3] (fun J => (3 * J.headI + J.tail.headI + 1 : ℚ)) (1/2)).map
        (fun f => f [0]) = some (1, 4) ∧
    hpd1 [(1:ℚ), 2, 3] (1/2) = some (1, 2) ∧
    ((1 : ℚ), (4 : ℚ)) ≠ ((1 : ℚ), (2 : ℚ)) := by
  refine ⟨?_, ?_, by norm_num⟩
  · rw [hpd_nd_shape_cons]
    have hall : ∀ i ∈ hpdIndexList [3],
        ∃ v, calc_min_interval
          (np_sort ((List.range 2).map
            (fun j => (fun J => (3 * J.headI + J.tail.headI + 1 : ℚ)) (j :: i)))) (1/2) = some v := by
      intro i _
      apply cmi_isSome _ _ (by norm_num) (by norm_num)
      intro hnil
      have := congrArg List.length hnil
      rw [np_sort, (List.perm_insertionSort _ _).length_eq] at this
      simp at this
    obtain ⟨f, hf⟩ := hpdFold_some _ (hpdIndexList [3]) hall (fun _ => (0, 0))
    have hmem : [0] ∈ hpdIndexList [3] := by
      apply (hpdIndexList_mem [3] [0]).mpr
      exact List.Forall₂.cons (by norm_num) List.Forall₂.nil
    have hval := hpdFold_value _ (hpdIndexList [3]) [0] hmem hall _ _ hf
    have hcol : (List.range 2).map
        (fun j => (fun J => (3 * J.headI + J.tail.headI + 1 : ℚ)) (j :: [0])) = [1, 4] := by
      simp [List.range_succ]
      norm_num
    rw [hcol] at hval
    have hsx : np_sort [(1:ℚ), 4] = [1, 4] := by
      norm_num [np_sort, List.insertionSort, List.orderedInsert]
    rw [hsx] at hval
    have hcmi : calc_min_interval [(1:ℚ), 4] (1/2) = some (1, 4) := by
      norm_num [calc_min_interval, pySliceFrom, pySliceTo, pyStart, pyGetD,
        np_argmin, listMin]
      simp [min_def, List.findIdx_cons]
      all_goals try norm_num
      all_goals rfl
    rw [hcmi] at hval
    rw [hf]
    show some (f [0]) = some (1, 4)
    injection hval with hval
    rw [← hval]
  · rw [hpd1, np_copy]
    have hsx : np_sort [(1:ℚ), 2, 3] = [1, 2, 3] := by
      norm_num [np_sort, List.insertionSort, List.orderedInsert]
    rw [hsx]
    norm_num [calc_min_interval, pySliceFrom, pySliceTo, pyStart, pyGetD,
      np_argmin, listMin]
    simp [min_def, List.findIdx_cons]
    all_goals try norm_num
    all_goals rfl

/-- **C2 (amended).** `hpd` on a rank-1 input equals `calc_min_interval` on
the ascending sort of the input, wrapped as a 2-element array.  On a
multivariate input the SAMPLE axis is the FIRST axis, not the last: for shape
`(n, d1, ..., dk)` with `n ≥ 1`, `alpha ∈ (0,1)`, the call returns an array
of shape `(d1, ..., dk, 2)` whose pair at every in-bounds leading index `J`
equals the rank-1 result on the 1-D slice `[x[i][J] for i in range(n)]`. -/
theorem hpd_c2 (n : ℕ) (ds : List ℕ) (x : List ℕ → ℚ) (alpha : ℚ)
    (h0 : 0 < alpha) (h1 : alpha < 1) (hn : 0 < n) :
    (∀ y : List ℚ, hpd1 y alpha = calc_min_interval (np_sort y) alpha) ∧
    ∃ f, hpd_nd (n :: ds) x alpha = some f ∧
      ∀ J, List.Forall₂ (· < ·) J ds →
        some (f J) = hpd1 ((List.range n).map (fun i => x (i :: J))) alpha := by
  refine ⟨fun y => rfl, ?_⟩
  have hall : ∀ i ∈ hpdIndexList ds,
      ∃ v, calc_min_interval
        (np_sort ((List.range n).map (fun j => x (j :: i)))) alpha = some v := by
    intro i _
    apply cmi_isSome _ _ h0 h1
    intro hnil
    have := congrArg List.length hnil
    rw [np_sort, (List.perm_insertionSort _ _).length_eq] at this
    simp at this
    omega
  obtain ⟨f, hf⟩ := hpdFold_some _ (hpdIndexList ds) hall (fun _ => (0, 0))
  refine ⟨f, ?_, ?_⟩
  · rw [hpd_nd_shape_cons]
    exact hf
  · intro J hJ
    have hmem : J ∈ hpdIndexList ds := (hpdIndexList_mem ds J).mpr hJ
    have hval := hpdFold_value _ (hpdIndexList ds) J hmem hall _ _ hf
    rw [hpd1, np_copy]
    exact hval.symm

/-- Witness for C2 (amended) on the shape-(2,3) trace `[[1,2,3],[4,5,6]]`
with `alpha = 1/2`. -/
theorem hpd_c2_witness :
    (0:ℚ) < 1/2 ∧ (1/2:ℚ) < 1 ∧ 0 < 2 ∧
    ((∀ y : List ℚ, hpd1 y (1/2) = calc_min_interval (np_sort y) (1/2)) ∧
     ∃ f, hpd_nd [2, 3] (fun J => (3 * J.headI + J.tail.headI + 1 : ℚ)) (1/2) = some f ∧
       ∀ J, List.Forall₂ (· < ·) J [3] →
         some (f J) = hpd1 ((List.range 2).map
           (fun i => (fun J => (3 * J.headI + J.tail.headI + 1 : ℚ)) (i :: J))) (1/2)) := by
  have h0 : (0:ℚ) < 1/2 := by norm_num
  have h1 : (1/2:ℚ) < 1 := by norm_num
  have hn : 0 < 2 := by norm_num
  exact ⟨h0, h1, hn,
    hpd_c2 2 [3] (fun J => (3 * J.headI + J.tail.headI + 1 : ℚ)) (1/2) h0 h1 hn⟩

/-! ### Frame behaviour: the caller's array is never mutated

The numpy operations the source applies to caller data all return fresh
values: `ndarray.copy()` and `np.sort(a)` allocate new arrays (the mutating
variant would be the method `a.sort()`, which the source never calls), and
`np.shape`, `np.resize`, `np.mean`, `np.std`, slicing and arithmetic read
their arguments without writing.  The state-passing forms below thread the
caller's array through the call and return it alongside the result. -/

/-- State-passing form of rank-1 `hpd`: second component is the caller's
array after the call (the body reads only the copy `xc`). -/
def hpd1_frame (x : List ℚ) (alpha : ℚ) : Option (ℚ × ℚ) × List ℚ :=
  let xc := np_copy x
  let sx := np_sort xc
  (calc_min_interval sx alpha, x)

/-- State-passing form of rank-1 `batchsd` (the source does not even copy:
every operation it applies is read-only). -/
noncomputable def batchsd_frame (trace : List ℚ) (batches : ℕ) : ℝ × List ℚ :=
  (batchsd trace batches, trace)

/-- State-passing form of univariate `calc_quantiles` (the body reads only
the copy made by `calc_quantiles`). -/
def calc_quantiles_frame (x : List ℚ) (qlist : List ℚ) :
    Option (List (ℚ × ℚ)) × List ℚ :=
  (calc_quantiles x qlist, x)

/-- **C9.** `hpd`, `batchsd` and `calc_quantiles` leave the caller's input
array unchanged, element for element, whether the call succeeds or fails
(for `hpd` and `calc_quantiles` the pair's first component is `none` exactly
when the call raises or returns `None`, and the caller's array is returned
unchanged in both cases). -/
theorem no_mutation_c9 (x : List ℚ) (alpha : ℚ) (b : ℕ) (qlist : List ℚ) :
    (hpd1_frame x alpha).2 = x ∧ (batchsd_frame x b).2 = x ∧
    (calc_quantiles_frame x qlist).2 = x :=
  ⟨rfl, rfl, rfl⟩

end PyMCUtil
